import Mathlib

/-!
Shallow embedding of `src/core/tree-sitter/parseFile.ts` (repomix).

The external collaborators (language guessing, query compilation, the
tree-sitter parser) produce a line sequence and a list of tagged captures;
everything from line 47 of the source onward — classification of each
capture, signature/class trimming, deduplication and assembly — is modelled
here as pure functions over `List String` (the lines) and `List Capture`.
JavaScript string operations are modelled at the `List Char` level so that
every definition is executable by `decide`/`rfl`.
-/

namespace Repomix

/-- First index at which `sub` occurs in `l`, JS `String.prototype.indexOf`
on the character-list level (`none` when absent). -/
def listIndexOf? (sub : List Char) : List Char → Option Nat
  | [] => if sub.isPrefixOf ([] : List Char) then some 0 else none
  | c :: t =>
    if sub.isPrefixOf (c :: t) then some 0
    else (listIndexOf? sub t).map (fun n => n + 1)

/-- JS `String.prototype.includes`. -/
def jsIncludes (s sub : String) : Bool :=
  (listIndexOf? sub.toList s.toList).isSome

/-- JS `String.prototype.endsWith`. -/
def jsEndsWith (s suffix : String) : Bool :=
  suffix.toList.isSuffixOf s.toList

/-- Whitespace recognised by the model of JS `trim` (the ASCII whitespace
characters that occur in source lines). -/
def isJsWS (c : Char) : Bool :=
  c = ' ' || c = '\t' || c = '\n' || c = '\r'

/-- JS `String.prototype.trim`: drop whitespace at both ends. -/
def jsTrim (s : String) : String :=
  String.mk (((s.toList.dropWhile isJsWS).reverse.dropWhile isJsWS).reverse)

/-- JS `s.substring(0, s.indexOf(sub))` when `sub` occurs in `s`, else `s`
unchanged (the callers only take the substring after an `includes` check,
and the class branch `replace` of `/\x7b.*$/` also keeps `s` when there is
no brace). -/
def takeBefore (s sub : String) : String :=
  match listIndexOf? sub.toList s.toList with
  | some i => String.mk (s.toList.take i)
  | none => s

/-- JS `lines.slice(a, b)` for the index ranges used by `parseFile`. -/
def jsSlice (lines : List String) (a b : Nat) : List String :=
  (lines.drop a).take (b - a)

/-- A tree-sitter capture as consumed by `parseFile`: the capture tag and
the start/end rows of its node (lines 57-59 of the source). -/
structure Capture where
  name : String
  startRow : Nat
  endRow : Nat
deriving DecidableEq

/-- Line 66 of the source. -/
def isCommentName (n : String) : Bool :=
  jsIncludes n "definition.comment"

/-- Lines 67-71 of the source. -/
def isTypeDefinitionName (n : String) : Bool :=
  jsIncludes n "definition.interface" || jsIncludes n "definition.type" ||
  jsIncludes n "definition.enum" || jsIncludes n "definition.class"

/-- Line 72 of the source. -/
def isImportName (n : String) : Bool :=
  jsIncludes n "definition.import"

/-- Lines 73-75 of the source. -/
def isFunctionName (n : String) : Bool :=
  jsIncludes n "definition.function" || jsIncludes n "definition.method"

/-- Line 76 of the source. -/
def isPropertyName (n : String) : Bool :=
  jsIncludes n "definition.property"

/-- Lines 78-82 of the source. -/
def isFullCaptureName (n : String) : Bool :=
  isCommentName n || isTypeDefinitionName n || isImportName n || isPropertyName n

/-- The signature-end test of lines 94-100: the trimmed row contains a
closing parenthesis and ends with a body-opening marker. -/
def sigEndCond (l : String) : Bool :=
  jsIncludes l ")" &&
    (jsEndsWith l "\x7b" || jsEndsWith l "=>" || jsEndsWith l "->" ||
     jsEndsWith l ":" || jsEndsWith l ";")

/-- The scan loop of lines 92-104, `for (let i = startRow; i <= endRow; i++)`,
run with `fuel = endRow + 1 - startRow` iterations starting at `i`.
`none` models the JS `TypeError` thrown by `lines[i].trim()` when
`lines[i]` is `undefined`; `some none` is loop exit without `break`
(the caller then falls back to `startRow`); `some (some i)` is `break`
at row `i`. -/
def sigScan (lines : List String) : Nat → Nat → Option (Option Nat)
  | _, 0 => some none
  | i, Nat.succ fuel =>
    match lines[i]? with
    | none => none
    | some l =>
      if sigEndCond (jsTrim l) then some (some i)
      else sigScan lines (i + 1) fuel

/-- Lines 113-121: remove the implementation part from the last selected
line, checking the markers in the fixed order brace, arrow, thin arrow. -/
def removeImpl (l : String) : String :=
  if jsIncludes l "\x7b" then jsTrim (takeBefore l "\x7b")
  else if jsIncludes l "=>" then jsTrim (takeBefore l "=>")
  else if jsIncludes l "->" then jsTrim (takeBefore l "->")
  else l

/-- Lines 109-121: rewrite the last selected line (the `if (lastLine)`
truthiness guard skips the rewrite for a missing or empty last line). -/
def truncateLast (sel : List String) : List String :=
  match sel.getLast? with
  | none => sel
  | some last =>
    if last = "" then sel
    else sel.dropLast ++ [removeImpl last]

/-- Lines 143-145: `line.replace(/\x7b.*$/, '').trim()` — everything from
the first brace onward is removed, then the line is trimmed. -/
def stripBrace (l : String) : String :=
  jsTrim (takeBefore l "\x7b")

/-- `selectedLines.join('\n')` of the source. -/
def joinLines (sel : List String) : String :=
  String.intercalate "\n" sel

/-- `selectedLines.join('\n').trim()` — the final chunk text, which is also
the dedup key for the categories that dedupe. -/
def chunkOf (sel : List String) : String :=
  jsTrim (joinLines sel)

/-- The shared dedup-and-push ending of the function (lines 124-128), class
(lines 147-151) and type/import (lines 157-160) branches, together with the
shared push of lines 167-169: membership of the final text in the processed
set discards the capture (`continue`), otherwise the key is recorded and
the chunk emitted when the selection is nonempty. The result pairs the new
processed set with the optionally emitted chunk. -/
def dedupFinish (processed : List String) (sel : List String) :
    Option (List String × Option String) :=
  if chunkOf sel ∈ processed then some (processed, none)
  else some (chunkOf sel :: processed,
    if 0 < sel.length then some (chunkOf sel) else none)

/-- Lines 130-151, the tail of the class branch after the next-line lookup:
strip braces from each selected line independently, then dedup and push. -/
def classFinish (processed : List String) (sel : List String) :
    Option (List String × Option String) :=
  dedupFinish processed (sel.map stripBrace)

/-- One iteration of the capture loop, lines 56-170 of the source, as
explicit state passing: given the processed set, return `none` when the
iteration throws (an out-of-range line access inside the signature scan or
the class next-line lookup), else `some (processed', emitted?)`. The
push of lines 167-169 is inlined into each branch; a capture that enters
the outer guard only through `isPropertyCapture` matches no inner branch,
leaves `selectedLines` undefined and therefore emits nothing. -/
def processCapture (lines : List String) (processed : List String) (c : Capture) :
    Option (List String × Option String) :=
  match lines[c.startRow]? with
  | none => some (processed, none)
  | some firstLine =>
    if firstLine = "" then some (processed, none)
    else
      if isFullCaptureName c.name || isFunctionName c.name then
        if isFunctionName c.name then
          match sigScan lines c.startRow (c.endRow + 1 - c.startRow) with
          | none => none
          | some found =>
            dedupFinish processed
              (truncateLast (jsSlice lines c.startRow ((found.getD c.startRow) + 1)))
        else if isTypeDefinitionName c.name && jsIncludes c.name "definition.class" then
          if c.startRow + 1 ≤ c.endRow then
            match lines[c.startRow + 1]? with
            | none => none
            | some nl =>
              if jsIncludes (jsTrim nl) "extends" || jsIncludes (jsTrim nl) "implements" then
                classFinish processed [firstLine, jsTrim nl]
              else
                classFinish processed [firstLine]
          else classFinish processed [firstLine]
        else if isTypeDefinitionName c.name || isImportName c.name then
          dedupFinish processed (jsSlice lines c.startRow (c.endRow + 1))
        else if isCommentName c.name then
          if 0 < (jsSlice lines c.startRow (c.endRow + 1)).length then
            some (processed, some (chunkOf (jsSlice lines c.startRow (c.endRow + 1))))
          else some (processed, none)
        else
          some (processed, none)
      else some (processed, none)

/-- The capture loop of lines 56-171 with the surrounding `try`/`catch`
(lines 50, 172-174): a thrown iteration is caught, logged, and the chunks
assembled so far are kept. -/
def runCaptures (lines : List String) :
    List String → List String → List Capture → List String
  | _, chunks, [] => chunks
  | processed, chunks, c :: rest =>
    match processCapture lines processed c with
    | none => chunks
    | some (p, none) => runCaptures lines p chunks rest
    | some (p, some s) => runCaptures lines p (chunks ++ [s]) rest

/-- The row-order relation used by the sort of line 54. -/
def rowLE (a b : Capture) : Prop :=
  a.startRow ≤ b.startRow

instance : DecidableRel rowLE :=
  fun a b => Nat.decLe a.startRow b.startRow

instance : IsTotal Capture rowLE :=
  ⟨fun a b => Nat.le_total a.startRow b.startRow⟩

instance : IsTrans Capture rowLE :=
  ⟨fun _ _ _ hab hbc => Nat.le_trans hab hbc⟩

/-- Line 54: `captures.sort((a, b) => a.node.startPosition.row -
b.node.startPosition.row)` — a stable sort by start row, modelled by
insertion sort (JS `Array.prototype.sort` is stable). -/
def sortCaptures (captures : List Capture) : List Capture :=
  List.insertionSort rowLE captures

/-- Lines 47-171: the chunk list produced by `parseFile` once the external
parser and query have produced the line sequence and the captures. -/
def parseFileChunks (lines : List String) (captures : List Capture) : List String :=
  runCaptures lines [] [] (sortCaptures captures)

/-- Line 176: the final output string, chunks joined by a blank line. -/
def parseFile (lines : List String) (captures : List Capture) : String :=
  String.intercalate "\n\n" (parseFileChunks lines captures)

/-- Instrumented variant of `runCaptures` that records, next to each emitted
chunk, the capture that produced it; used only to state provenance
properties, and related to `runCaptures` by `runCaptures_eq_map_snd`. -/
def runCapturesT (lines : List String) :
    List String → List (Capture × String) → List Capture → List (Capture × String)
  | _, tchunks, [] => tchunks
  | processed, tchunks, c :: rest =>
    match processCapture lines processed c with
    | none => tchunks
    | some (p, none) => runCapturesT lines p tchunks rest
    | some (p, some s) => runCapturesT lines p (tchunks ++ [(c, s)]) rest

/-- The chunks of `parseFileChunks` tagged with their source captures. -/
def taggedChunks (lines : List String) (captures : List Capture) :
    List (Capture × String) :=
  runCapturesT lines [] [] (sortCaptures captures)

/-- The category lattice of the specification, derived from the capture tag
with the branch precedence of lines 84-165 of the source. -/
inductive Category where
  | Comment
  | TypeDefinition
  | ClassDefinition
  | Import
  | Property
  | Signature
  | Irrelevant
deriving DecidableEq

/-- Classification of a capture tag following the branch order of the
source: function/method first (lines 87-128), then class (130-151), then
type definition or import (153-160), then comment (162-165), then the
property-only case, and `Irrelevant` otherwise. -/
def classifyName (n : String) : Category :=
  if isFunctionName n then Category.Signature
  else if isTypeDefinitionName n && jsIncludes n "definition.class" then Category.ClassDefinition
  else if isTypeDefinitionName n then Category.TypeDefinition
  else if isImportName n then Category.Import
  else if isCommentName n then Category.Comment
  else if isPropertyName n then Category.Property
  else Category.Irrelevant

/-- The categories that the specification says deduplicate. -/
def dedupCat : Category → Bool
  | Category.Signature => true
  | Category.ClassDefinition => true
  | Category.TypeDefinition => true
  | Category.Import => true
  | Category.Property => true
  | _ => false

/-! Helper lemmas about the dedup-and-push ending -/

theorem dedupFinish_subset {p sel : List String} {p2 : List String}
    {e : Option String} (h : dedupFinish p sel = some (p2, e)) :
    ∀ x ∈ p, x ∈ p2 := by
  unfold dedupFinish at h
  split at h
  · simp only [Option.some.injEq, Prod.mk.injEq] at h
    intro x hx
    exact h.1 ▸ hx
  · simp only [Option.some.injEq, Prod.mk.injEq] at h
    intro x hx
    exact h.1 ▸ List.mem_cons_of_mem _ hx

theorem dedupFinish_emit {p sel : List String} {p2 : List String}
    {s : String} (h : dedupFinish p sel = some (p2, some s)) :
    s = chunkOf sel ∧ s ∉ p ∧ p2 = s :: p := by
  unfold dedupFinish at h
  split at h
  · simp at h
  · next hmem =>
    split at h
    · simp only [Option.some.injEq, Prod.mk.injEq, Option.some.injEq] at h
      obtain ⟨h1, h2⟩ := h
      subst h2
      exact ⟨rfl, hmem, h1.symm⟩
    · simp at h

theorem processCapture_subset {lines p : List String} {c : Capture}
    {p2 : List String} {e : Option String}
    (h : processCapture lines p c = some (p2, e)) :
    ∀ x ∈ p, x ∈ p2 := by
  unfold processCapture classFinish at h
  repeat' split at h
  all_goals
    first
      | exact dedupFinish_subset h
      | (simp only [Option.some.injEq, Prod.mk.injEq] at h
         intro x hx
         exact h.1 ▸ hx)
      | simp at h

/-- The comment branch of lines 162-165 is taken exactly when the tag
classifies as `Comment`. -/
theorem commentBranch_classify {n : String}
    (hf : isFunctionName n = false)
    (hti : (isTypeDefinitionName n || isImportName n) = false)
    (hc : isCommentName n = true) :
    classifyName n = Category.Comment := by
  simp only [Bool.or_eq_false_iff] at hti
  simp [classifyName, hf, hti.1, hti.2, hc]

/-- Every emission of `processCapture` is either a dedup-branch emission
(the final text was absent from the processed set and is recorded), or a
comment-branch emission (the processed set is untouched). -/
theorem processCapture_emit {lines p : List String} {c : Capture}
    {p2 : List String} {s : String}
    (h : processCapture lines p c = some (p2, some s)) :
    (s ∉ p ∧ p2 = s :: p) ∨
      (classifyName c.name = Category.Comment ∧ p2 = p) := by
  unfold processCapture classFinish at h
  split at h
  · simp at h
  split at h
  · simp at h
  split at h
  case isFalse => simp at h
  split at h
  · -- function branch
    split at h
    · simp at h
    · exact Or.inl ⟨(dedupFinish_emit h).2.1, (dedupFinish_emit h).2.2⟩
  split at h
  · -- class branch
    split at h
    · split at h
      · simp at h
      · split at h
        · exact Or.inl ⟨(dedupFinish_emit h).2.1, (dedupFinish_emit h).2.2⟩
        · exact Or.inl ⟨(dedupFinish_emit h).2.1, (dedupFinish_emit h).2.2⟩
    · exact Or.inl ⟨(dedupFinish_emit h).2.1, (dedupFinish_emit h).2.2⟩
  split at h
  · -- type-definition / import branch
    exact Or.inl ⟨(dedupFinish_emit h).2.1, (dedupFinish_emit h).2.2⟩
  split at h
  · -- comment branch
    next hfun hclass hti hcom =>
      split at h
      · simp only [Option.some.injEq, Prod.mk.injEq, Option.some.injEq] at h
        refine Or.inr ⟨commentBranch_classify ?_ ?_ hcom, h.1.symm⟩
        · simpa using hfun
        · simpa using hti
      · simp at h
  · simp at h

/-! Relating the loop to its instrumented variant -/

theorem runCaptures_eq_map_snd (lines : List String) :
    ∀ (cs : List Capture) (p : List String) (tch : List (Capture × String)),
      runCaptures lines p (tch.map Prod.snd) cs =
        (runCapturesT lines p tch cs).map Prod.snd := by
  intro cs
  induction cs with
  | nil => intro p tch; rfl
  | cons c rest ih =>
    intro p tch
    show (match processCapture lines p c with
      | none => tch.map Prod.snd
      | some (p2, none) => runCaptures lines p2 (tch.map Prod.snd) rest
      | some (p2, some s) => runCaptures lines p2 (tch.map Prod.snd ++ [s]) rest) = _
    rcases hp : processCapture lines p c with _ | ⟨p2, _ | s⟩
    · simp [runCapturesT, hp]
    · simp only [runCapturesT, hp]
      exact ih p2 tch
    · simp only [runCapturesT, hp]
      have := ih p2 (tch ++ [(c, s)])
      simpa using this

theorem parseFileChunks_eq_taggedChunks (lines : List String) (captures : List Capture) :
    parseFileChunks lines captures = (taggedChunks lines captures).map Prod.snd :=
  runCaptures_eq_map_snd lines (sortCaptures captures) [] []

theorem runCapturesT_fst_sublist (lines : List String) :
    ∀ (cs : List Capture) (p : List String) (tch : List (Capture × String)),
      List.Sublist ((runCapturesT lines p tch cs).map Prod.fst)
        (tch.map Prod.fst ++ cs) := by
  intro cs
  induction cs with
  | nil =>
    intro p tch
    simp only [runCapturesT, List.append_nil]
    exact List.Sublist.refl _
  | cons c rest ih =>
    intro p tch
    rcases hp : processCapture lines p c with _ | ⟨p2, _ | s⟩ <;>
      simp only [runCapturesT, hp]
    · exact List.sublist_append_left (tch.map Prod.fst) (c :: rest)
    · exact List.Sublist.trans (ih p2 tch)
        (List.Sublist.append_left (List.sublist_cons_self c rest) (tch.map Prod.fst))
    · have h1 := ih p2 (tch ++ [(c, s)])
      have h2 : (tch ++ [(c, s)]).map Prod.fst ++ rest =
          tch.map Prod.fst ++ (c :: rest) := by simp
      rw [h2] at h1
      exact h1

/-- Distinctness invariant: provided every already-emitted dedup-category
chunk text lies in the processed set and those texts are distinct, the
final dedup-category chunk texts stay distinct. -/
theorem runCapturesT_dedup_nodup (lines : List String) :
    ∀ (cs : List Capture) (p : List String) (tch : List (Capture × String)),
      (∀ x ∈ tch, dedupCat (classifyName x.1.name) = true → x.2 ∈ p) →
      (((tch.filter fun x => dedupCat (classifyName x.1.name)).map Prod.snd).Nodup) →
      (((runCapturesT lines p tch cs).filter
          fun x => dedupCat (classifyName x.1.name)).map Prod.snd).Nodup := by
  intro cs
  induction cs with
  | nil => intro p tch _ h2; exact h2
  | cons c rest ih =>
    intro p tch h1 h2
    rcases hp : processCapture lines p c with _ | ⟨p2, _ | s⟩ <;>
      simp only [runCapturesT, hp]
    · exact h2
    · refine ih p2 tch ?_ h2
      intro x hx hdc
      exact processCapture_subset hp x.2 (h1 x hx hdc)
    · by_cases hdc : dedupCat (classifyName c.name) = true
      · -- a dedup-category emission: the key was absent from the processed set
        have hemit : s ∉ p ∧ p2 = s :: p := by
          rcases processCapture_emit hp with hL | hR
          · exact hL
          · rw [hR.1] at hdc
            simp [dedupCat] at hdc
        refine ih p2 (tch ++ [(c, s)]) ?_ ?_
        · intro x hx hdx
          rcases List.mem_append.mp hx with hx1 | hx2
          · exact processCapture_subset hp x.2 (h1 x hx1 hdx)
          · have : x = (c, s) := by simpa using hx2
            rw [this, hemit.2]
            exact List.mem_cons_self s p
        · rw [List.filter_append, List.map_append]
          refine List.Nodup.append h2 ?_ ?_
          · simp [hdc]
          · intro t ht ht2
            simp only [List.filter_cons, hdc, if_pos, List.filter_nil,
              List.map_cons, List.map_nil, List.mem_singleton] at ht2
            obtain ⟨x, hx, hxt⟩ := List.mem_map.mp ht
            have hmem := (List.mem_filter.mp hx).1
            have hdx : dedupCat (classifyName x.1.name) = true := by
              simpa using (List.mem_filter.mp hx).2
            have hxp : t ∈ p := hxt ▸ h1 x hmem hdx
            rw [ht2] at hxp
            exact hemit.1 hxp
      · -- not a dedup category: the filtered list is unchanged by the push
        have hdc2 : dedupCat (classifyName c.name) = false :=
          Bool.not_eq_true _ ▸ eq_false_of_ne_true hdc
        refine ih p2 (tch ++ [(c, s)]) ?_ ?_
        · intro x hx hdx
          rcases List.mem_append.mp hx with hx1 | hx2
          · exact processCapture_subset hp x.2 (h1 x hx1 hdx)
          · have hxc : x = (c, s) := by simpa using hx2
            rw [hxc] at hdx
            rw [hdx] at hdc2
            simp at hdc2
        · rw [List.filter_append]
          simp [hdc2, h2]

/-! The stable sort of line 54 -/

theorem sortCaptures_sorted (captures : List Capture) :
    List.Sorted rowLE (sortCaptures captures) :=
  List.sorted_insertionSort rowLE captures

/-- Stability of the pre-sort: the captures with any fixed start row appear
in `sortCaptures captures` in exactly their original order. -/
theorem sortCaptures_filter_row (captures : List Capture) (k : Nat) :
    (sortCaptures captures).filter (fun c => c.startRow == k) =
      captures.filter (fun c => c.startRow == k) := by
  induction captures with
  | nil => rfl
  | cons a l ih =>
    simp only [sortCaptures] at ih ⊢
    rw [List.insertionSort, List.orderedInsert_eq_take_drop, List.filter_append,
      List.filter_cons]
    have hsplit : ((List.insertionSort rowLE l).takeWhile
          fun b => decide ¬rowLE a b).filter (fun c => c.startRow == k) ++
        ((List.insertionSort rowLE l).dropWhile
          fun b => decide ¬rowLE a b).filter (fun c => c.startRow == k) =
        (List.insertionSort rowLE l).filter (fun c => c.startRow == k) := by
      rw [← List.filter_append, List.takeWhile_append_dropWhile]
    by_cases hk : a.startRow = k
    · have hbeq : (a.startRow == k) = true := by simpa using hk
      have htw : ((List.insertionSort rowLE l).takeWhile
          fun b => decide ¬rowLE a b).filter (fun c => c.startRow == k) = [] := by
        rw [List.filter_eq_nil_iff]
        intro b hb
        have hnb : ¬ rowLE a b := by simpa using List.mem_takeWhile_imp hb
        have hlt : b.startRow < a.startRow := Nat.lt_of_not_le hnb
        simp only [beq_iff_eq]
        omega
      rw [if_pos hbeq]
      rw [htw, List.nil_append] at hsplit
      rw [htw, List.nil_append, hsplit, ih]
      simp [List.filter_cons, hbeq]
    · have hbeq : (a.startRow == k) = false := by simpa using hk
      rw [if_neg (by simp [hbeq])]
      rw [hsplit, ih]
      simp [List.filter_cons, hbeq]

/-! The signature scan -/

/-- When the scan of lines 92-104 breaks at row `i`, that row is the first
row in the scanned range whose trimmed text satisfies the signature-end
test. -/
theorem sigScan_break (lines : List String) :
    ∀ (fuel s i : Nat), sigScan lines s fuel = some (some i) →
      s ≤ i ∧ i < s + fuel ∧
      (∃ l, lines[i]? = some l ∧ sigEndCond (jsTrim l) = true) ∧
      (∀ j, s ≤ j → j < i → ∃ l, lines[j]? = some l ∧ sigEndCond (jsTrim l) = false) := by
  intro fuel
  induction fuel with
  | zero => intro s i h; simp [sigScan] at h
  | succ fuel ih =>
    intro s i h
    rcases hl : lines[s]? with _ | l
    · simp [sigScan, hl] at h
    · simp only [sigScan, hl] at h
      by_cases hc : sigEndCond (jsTrim l) = true
      · rw [if_pos hc] at h
        have hi : s = i := Option.some.inj (Option.some.inj h)
        subst hi
        refine ⟨Nat.le_refl s, by omega, ⟨l, hl, hc⟩, ?_⟩
        intro j hj1 hj2
        omega
      · rw [if_neg hc] at h
        obtain ⟨h1, h2, h3, h4⟩ := ih (s + 1) i h
        refine ⟨by omega, by omega, h3, ?_⟩
        intro j hj1 hj2
        rcases Nat.eq_or_lt_of_le hj1 with hj | hj
        · subst hj
          exact ⟨l, hl, Bool.eq_false_iff.mpr hc⟩
        · exact h4 j (by omega) hj2

/-- When no row of the scanned range satisfies the signature-end test (and
every scanned row is in bounds), the scan finishes without a break and the
caller falls back to `startRow`. -/
theorem sigScan_no_break (lines : List String) :
    ∀ (fuel s : Nat),
      (∀ j, s ≤ j → j < s + fuel →
        ∃ l, lines[j]? = some l ∧ sigEndCond (jsTrim l) = false) →
      sigScan lines s fuel = some none := by
  intro fuel
  induction fuel with
  | zero => intro s _; rfl
  | succ fuel ih =>
    intro s h
    obtain ⟨l, hl, hc⟩ := h s (Nat.le_refl s) (by omega)
    simp only [sigScan, hl, hc, Bool.false_eq_true, if_false]
    exact ih (s + 1) (fun j hj1 hj2 => h j (by omega) (by omega))

/-! First-occurrence semantics of the index search -/

/-- `listIndexOf?` really finds the first occurrence: the pattern occurs at
the returned index and at no earlier index. -/
theorem listIndexOf?_spec (sub : List Char) :
    ∀ (l : List Char) (i : Nat), listIndexOf? sub l = some i →
      sub.isPrefixOf (l.drop i) = true ∧
      ∀ j, j < i → sub.isPrefixOf (l.drop j) = false := by
  intro l
  induction l with
  | nil =>
    intro i h
    simp only [listIndexOf?] at h
    split at h
    · next hpre =>
      have hi : (0 : Nat) = i := Option.some.inj h
      subst hi
      exact ⟨by simpa using hpre, fun j hj => absurd hj (by omega)⟩
    · exact absurd h (by simp)
  | cons c t ih =>
    intro i h
    simp only [listIndexOf?] at h
    split at h
    · next hpre =>
      have hi : (0 : Nat) = i := Option.some.inj h
      subst hi
      exact ⟨by simpa using hpre, fun j hj => absurd hj (by omega)⟩
    · next hpre =>
      rcases hr : listIndexOf? sub t with _ | i2
      · rw [hr] at h
        exact absurd h (by simp)
      · rw [hr] at h
        simp only [Option.map_some'] at h
        have hi : i2 + 1 = i := Option.some.inj h
        subst hi
        obtain ⟨h1, h2⟩ := ih i2 hr
        refine ⟨by simpa using h1, ?_⟩
        intro j hj
        cases j with
        | zero => exact Bool.eq_false_iff.mpr hpre
        | succ j2 => simpa using h2 j2 (by omega)

theorem jsIncludes_iff_index (s sub : String) :
    jsIncludes s sub = true ↔ ∃ i, listIndexOf? sub.toList s.toList = some i := by
  unfold jsIncludes
  rcases h : listIndexOf? sub.toList s.toList with _ | i <;> simp [h]

theorem takeBefore_eq_of_index {s sub : String} {i : Nat}
    (h : listIndexOf? sub.toList s.toList = some i) :
    takeBefore s sub = String.mk (s.toList.take i) := by
  unfold takeBefore
  rw [h]

/-! Classification facts -/

theorem classify_property {n : String} (h : classifyName n = Category.Property) :
    isFunctionName n = false ∧ isTypeDefinitionName n = false ∧
    isImportName n = false ∧ isCommentName n = false ∧ isPropertyName n = true := by
  unfold classifyName at h
  split_ifs at h <;> simp_all

theorem classify_comment {n : String} (h : classifyName n = Category.Comment) :
    isFunctionName n = false ∧ isTypeDefinitionName n = false ∧
    isImportName n = false ∧ isCommentName n = true := by
  unfold classifyName at h
  split_ifs at h <;> simp_all

theorem classify_class {n : String} (h : classifyName n = Category.ClassDefinition) :
    isFunctionName n = false ∧ isTypeDefinitionName n = true ∧
    jsIncludes n "definition.class" = true := by
  unfold classifyName at h
  split_ifs at h <;> simp_all

/-! Claim theorems -/

/-- C1: the specification says a Property capture (tag containing the
property vocabulary and none of the function/comment/type/import
vocabularies) emits its verbatim span under the usual dedup rule; the code
instead lets such a capture through the outer guard via `isPropertyCapture`
but matches it in no inner branch, so `selectedLines` stays undefined and
nothing at all is emitted — the processed set is not touched either. The
second conjunct evaluates the pipeline at the concrete failing input. -/
theorem property_capture_emits_nothing :
    (∀ (lines p : List String) (c : Capture),
      classifyName c.name = Category.Property →
      processCapture lines p c = some (p, none)) ∧
    parseFileChunks ["foo: number;"] [⟨"definition.property", 0, 0⟩] = [] := by
  constructor
  · intro lines p c hcat
    obtain ⟨hf, ht, hi, hc, hp⟩ := classify_property hcat
    rcases hl : lines[c.startRow]? with _ | l0
    · simp [processCapture, hl]
    · by_cases he : l0 = ""
      · simp [processCapture, hl, he]
      · simp [processCapture, hl, he, isFullCaptureName, hf, ht, hi, hc, hp]
  · decide

theorem property_capture_emits_nothing_witness :
    processCapture ["foo: number;"] [] ⟨"definition.property", 0, 0⟩ = some ([], none) :=
  property_capture_emits_nothing.1 ["foo: number;"] [] ⟨"definition.property", 0, 0⟩
    (by decide)

/-- C2 counterexample: a function capture over rows 0-2 in which no row
satisfies the signature-end condition is reduced to its first line, not
kept whole as the claim states. -/
theorem signature_fallback_counterexample :
    parseFileChunks ["function f(", "a,", "b)"] [⟨"definition.function", 0, 2⟩] =
      ["function f("] ∧
    chunkOf ["function f(", "a,", "b)"] = "function f(\na,\nb)" ∧
    "function f(" ≠ "function f(\na,\nb)" := by
  refine ⟨by decide, by decide, by decide⟩

/-- C2 amended: when no row of `startRow..endRow` satisfies the
signature-end condition (and every scanned row is in bounds), the scan
falls back to `signatureEndRow = startRow`, so only the first line of the
capture span is kept (the capture is processed, not dropped). -/
theorem signature_fallback_keeps_first_line :
    ∀ (lines p : List String) (c : Capture) (l0 : String),
      isFunctionName c.name = true →
      lines[c.startRow]? = some l0 → l0 ≠ "" →
      (∀ j, c.startRow ≤ j → j ≤ c.endRow →
        ∃ l, lines[j]? = some l ∧ sigEndCond (jsTrim l) = false) →
      sigScan lines c.startRow (c.endRow + 1 - c.startRow) = some none ∧
      processCapture lines p c = dedupFinish p (truncateLast [l0]) := by
  intro lines p c l0 hf hl he hno
  have hscan : sigScan lines c.startRow (c.endRow + 1 - c.startRow) = some none := by
    apply sigScan_no_break
    intro j hj1 hj2
    exact hno j hj1 (by omega)
  refine ⟨hscan, ?_⟩
  have hlen : c.startRow < lines.length := (List.getElem?_eq_some.mp hl).1
  have hval : lines[c.startRow] = l0 := by
    rcases List.getElem?_eq_some.mp hl with ⟨hh, hv⟩
    exact hv
  have hslice : jsSlice lines c.startRow (c.startRow + 1) = [l0] := by
    unfold jsSlice
    rw [List.drop_eq_getElem_cons hlen, hval]
    simp
  simp [processCapture, hl, he, hf, hscan, hslice]

theorem signature_fallback_keeps_first_line_witness :
    sigScan ["function f(", "a,", "b)"] 0 3 = some none ∧
    processCapture ["function f(", "a,", "b)"] [] ⟨"definition.function", 0, 2⟩ =
      dedupFinish [] (truncateLast ["function f("]) :=
  signature_fallback_keeps_first_line ["function f(", "a,", "b)"] []
    ⟨"definition.function", 0, 2⟩ "function f(" (by decide) (by decide) (by decide)
    (by
      intro j hj1 hj2
      interval_cases j
      · exact ⟨"function f(", rfl, by decide⟩
      · exact ⟨"a,", rfl, by decide⟩
      · exact ⟨"b)", rfl, by decide⟩)

/-- C3: chunks emitted from captures of the deduplicating categories
(Signature, ClassDefinition, TypeDefinition, Import, Property) are pairwise
distinct in the final output, and the dedup key consulted is exactly the
final joined-and-trimmed chunk text that is emitted: an emission from a
dedup category happens only when that text is absent from the processed set,
and the text itself is then recorded. -/
theorem dedup_categories_no_duplicate_chunks :
    ∀ (lines : List String) (captures : List Capture),
      parseFileChunks lines captures = (taggedChunks lines captures).map Prod.snd ∧
      (((taggedChunks lines captures).filter
          fun x => dedupCat (classifyName x.1.name)).map Prod.snd).Nodup ∧
      (∀ (p p2 : List String) (c : Capture) (s : String),
        processCapture lines p c = some (p2, some s) →
        dedupCat (classifyName c.name) = true →
        s ∉ p ∧ p2 = s :: p) := by
  intro lines captures
  refine ⟨parseFileChunks_eq_taggedChunks lines captures, ?_, ?_⟩
  · exact runCapturesT_dedup_nodup lines (sortCaptures captures) [] []
      (fun x hx => absurd hx (List.not_mem_nil x)) (by simp)
  · intro p p2 c s hp hdc
    rcases processCapture_emit hp with hL | hR
    · exact hL
    · rw [hR.1] at hdc
      simp [dedupCat] at hdc

theorem dedup_categories_no_duplicate_chunks_witness :
    "import x" ∉ ([] : List String) ∧ ["import x"] = "import x" :: [] :=
  (dedup_categories_no_duplicate_chunks ["import x"] [⟨"definition.import", 0, 0⟩]).2.2
    [] ["import x"] ⟨"definition.import", 0, 0⟩ "import x" (by decide) (by decide)

/-- C4: a capture classified as Comment never consults nor enters the
processed set — its result depends only on the lines and the capture, with
the processed set returned unchanged — and two Comment captures with
identical text both appear in the output. -/
theorem comment_captures_bypass_dedup :
    (∀ (lines p : List String) (c : Capture) (l0 : String),
      lines[c.startRow]? = some l0 → l0 ≠ "" →
      classifyName c.name = Category.Comment →
      processCapture lines p c = some (p,
        if 0 < (jsSlice lines c.startRow (c.endRow + 1)).length then
          some (chunkOf (jsSlice lines c.startRow (c.endRow + 1)))
        else none)) ∧
    parseFileChunks ["// a", "x", "// a"]
      [⟨"definition.comment", 0, 0⟩, ⟨"definition.comment", 2, 2⟩] =
      ["// a", "// a"] := by
  constructor
  · intro lines p c l0 hl he hcat
    obtain ⟨hf, ht, hi, hc⟩ := classify_comment hcat
    simp only [processCapture, hl, he, hf, ht, hi, hc, isFullCaptureName,
      Bool.or_false, Bool.false_or, Bool.or_true, Bool.true_or, Bool.and_false,
      Bool.false_and, if_true, if_false, Bool.false_eq_true]
    split <;> simp_all
  · decide

theorem comment_captures_bypass_dedup_witness :
    processCapture ["// a", "x", "// a"] ["// a"] ⟨"definition.comment", 2, 2⟩ =
      some (["// a"],
        if 0 < (jsSlice ["// a", "x", "// a"] 2 3).length then
          some (chunkOf (jsSlice ["// a", "x", "// a"] 2 3))
        else none) :=
  comment_captures_bypass_dedup.1 ["// a", "x", "// a"] ["// a"]
    ⟨"definition.comment", 2, 2⟩ "// a" (by decide) (by decide) (by decide)

/-- C5: the signature scan stops at the first row whose trimmed text
contains a closing parenthesis and ends with one of the five markers (rows
before it all fail the test), and on Scenario A the whole pipeline emits
the comment and the de-bodied signature separated by a blank line. -/
theorem signature_scan_first_row_and_scenario_a :
    (∀ (lines : List String) (fuel s i : Nat),
      sigScan lines s fuel = some (some i) →
      (∃ l, lines[i]? = some l ∧ sigEndCond (jsTrim l) = true) ∧
      (∀ j, s ≤ j → j < i →
        ∃ l, lines[j]? = some l ∧ sigEndCond (jsTrim l) = false)) ∧
    parseFile
      ["// Adds two numbers",
       "function add(a: number, b: number): number \x7b",
       "  return a + b;",
       "\x7d"]
      [⟨"definition.comment", 0, 0⟩, ⟨"definition.function", 1, 3⟩] =
      "// Adds two numbers\n\nfunction add(a: number, b: number): number" := by
  constructor
  · intro lines fuel s i h
    obtain ⟨_, _, h3, h4⟩ := sigScan_break lines fuel s i h
    exact ⟨h3, h4⟩
  · decide

theorem signature_scan_first_row_and_scenario_a_witness :
    ((∃ l, ["f() \x7b", "x"][(0 : Nat)]? = some l ∧ sigEndCond (jsTrim l) = true) ∧
     (∀ j, 0 ≤ j → j < 0 →
       ∃ l, ["f() \x7b", "x"][j]? = some l ∧ sigEndCond (jsTrim l) = false)) :=
  signature_scan_first_row_and_scenario_a.1 ["f() \x7b", "x"] 2 0 0 (by decide)

/-- C6 counterexample: the row `def f(x) -> int:` stops the scan through its
trailing colon (it ends with none of the other four markers), yet the
emitted chunk is truncated at the `->` marker instead of being kept intact
as the claim states. -/
theorem truncation_marker_counterexample :
    parseFileChunks ["def f(x) -> int:"] [⟨"definition.function", 0, 0⟩] =
      ["def f(x)"] ∧
    sigEndCond (jsTrim "def f(x) -> int:") = true ∧
    jsEndsWith (jsTrim "def f(x) -> int:") ":" = true ∧
    jsEndsWith (jsTrim "def f(x) -> int:") "\x7b" = false ∧
    jsEndsWith (jsTrim "def f(x) -> int:") "=>" = false ∧
    jsEndsWith (jsTrim "def f(x) -> int:") "->" = false ∧
    jsEndsWith (jsTrim "def f(x) -> int:") ";" = false ∧
    "def f(x)" ≠ "def f(x) -> int:" := by
  decide

/-- C6 amended: on the last selected line the markers are tested in the
fixed priority order brace, `=>`, `->` — independently of which marker
stopped the scan; the line is cut at the first occurrence of the
first-present marker in that order and trimmed, and it is kept intact only
when it contains none of the three markers (so a colon/semicolon-stopped
signature is kept intact only in that case). -/
theorem truncation_marker_priority :
    (∀ l : String, jsIncludes l "\x7b" = true →
      ∃ i, listIndexOf? "\x7b".toList l.toList = some i ∧
        "\x7b".toList.isPrefixOf (l.toList.drop i) = true ∧
        (∀ j, j < i → "\x7b".toList.isPrefixOf (l.toList.drop j) = false) ∧
        removeImpl l = jsTrim (String.mk (l.toList.take i))) ∧
    (∀ l : String, jsIncludes l "\x7b" = false → jsIncludes l "=>" = true →
      ∃ i, listIndexOf? "=>".toList l.toList = some i ∧
        "=>".toList.isPrefixOf (l.toList.drop i) = true ∧
        (∀ j, j < i → "=>".toList.isPrefixOf (l.toList.drop j) = false) ∧
        removeImpl l = jsTrim (String.mk (l.toList.take i))) ∧
    (∀ l : String, jsIncludes l "\x7b" = false → jsIncludes l "=>" = false →
      jsIncludes l "->" = true →
      ∃ i, listIndexOf? "->".toList l.toList = some i ∧
        "->".toList.isPrefixOf (l.toList.drop i) = true ∧
        (∀ j, j < i → "->".toList.isPrefixOf (l.toList.drop j) = false) ∧
        removeImpl l = jsTrim (String.mk (l.toList.take i))) ∧
    (∀ l : String, jsIncludes l "\x7b" = false → jsIncludes l "=>" = false →
      jsIncludes l "->" = false → removeImpl l = l) ∧
    parseFileChunks ["def g(y) -> str:"] [⟨"definition.function", 0, 0⟩] =
      ["def g(y)"] := by
  refine ⟨?_, ?_, ?_, ?_, by decide⟩
  · intro l h1
    obtain ⟨i, hi⟩ := (jsIncludes_iff_index l "\x7b").mp h1
    obtain ⟨hp1, hp2⟩ := listIndexOf?_spec "\x7b".toList l.toList i hi
    exact ⟨i, hi, hp1, hp2, by
      simp [removeImpl, h1, takeBefore_eq_of_index hi]⟩
  · intro l h1 h2
    obtain ⟨i, hi⟩ := (jsIncludes_iff_index l "=>").mp h2
    obtain ⟨hp1, hp2⟩ := listIndexOf?_spec "=>".toList l.toList i hi
    exact ⟨i, hi, hp1, hp2, by
      simp [removeImpl, h1, h2, takeBefore_eq_of_index hi]⟩
  · intro l h1 h2 h3
    obtain ⟨i, hi⟩ := (jsIncludes_iff_index l "->").mp h3
    obtain ⟨hp1, hp2⟩ := listIndexOf?_spec "->".toList l.toList i hi
    exact ⟨i, hi, hp1, hp2, by
      simp [removeImpl, h1, h2, h3, takeBefore_eq_of_index hi]⟩
  · intro l h1 h2 h3
    simp [removeImpl, h1, h2, h3]

theorem truncation_marker_priority_witness :
    (∃ i, listIndexOf? "\x7b".toList "f = (x: \x7ba: T\x7d) =>".toList = some i ∧
      "\x7b".toList.isPrefixOf ("f = (x: \x7ba: T\x7d) =>".toList.drop i) = true ∧
      (∀ j, j < i →
        "\x7b".toList.isPrefixOf ("f = (x: \x7ba: T\x7d) =>".toList.drop j) = false) ∧
      removeImpl "f = (x: \x7ba: T\x7d) =>" =
        jsTrim (String.mk ("f = (x: \x7ba: T\x7d) =>".toList.take i))) ∧
    removeImpl "def h(z) -> U:" =
      jsTrim (String.mk ("def h(z) -> U:".toList.take 9)) :=
  ⟨truncation_marker_priority.1 "f = (x: \x7ba: T\x7d) =>" (by decide),
   by
    obtain ⟨i, hi, _, _, hres⟩ :=
      truncation_marker_priority.2.2.1 "def h(z) -> U:" (by decide) (by decide) (by decide)
    have : i = 9 := by
      have h9 : listIndexOf? "->".toList "def h(z) -> U:".toList = some 9 := by decide
      rw [h9] at hi
      exact (Option.some.inj hi).symm
    rw [← this]
    exact hres⟩

/-- C7: the emitted chunk sequence is the tagged chunk sequence stripped of
its provenance; the tagged captures form a sublist of the row-sorted
captures, hence chunk order is non-decreasing in source start row, the
pre-sorted list is sorted, and it is a stable permutation: captures of any
fixed start row keep their original order. -/
theorem chunk_order_nondecreasing :
    ∀ (lines : List String) (captures : List Capture),
      parseFileChunks lines captures = (taggedChunks lines captures).map Prod.snd ∧
      List.Sublist ((taggedChunks lines captures).map Prod.fst) (sortCaptures captures) ∧
      List.Pairwise (fun a b => a.1.startRow ≤ b.1.startRow)
        (taggedChunks lines captures) ∧
      List.Sorted rowLE (sortCaptures captures) ∧
      (∀ k, (sortCaptures captures).filter (fun c => c.startRow == k) =
        captures.filter (fun c => c.startRow == k)) := by
  intro lines captures
  have hsub : List.Sublist ((taggedChunks lines captures).map Prod.fst)
      (sortCaptures captures) := by
    have h := runCapturesT_fst_sublist lines (sortCaptures captures) [] []
    simp only [List.map_nil, List.nil_append] at h
    exact h
  refine ⟨parseFileChunks_eq_taggedChunks lines captures, hsub, ?_,
    sortCaptures_sorted captures, fun k => sortCaptures_filter_row captures k⟩
  have hpw : List.Pairwise rowLE ((taggedChunks lines captures).map Prod.fst) :=
    (sortCaptures_sorted captures).sublist hsub
  have hpw2 : List.Pairwise (fun a b => rowLE a.1 b.1) (taggedChunks lines captures) :=
    List.pairwise_map.mp hpw
  exact hpw2

/-- C8 counterexample: a Signature capture whose `endRow` lies beyond the
line sequence is not silently skipped — scanning row 2 of a two-line file
throws, the error is caught, and the in-bounds Comment capture after it is
never processed (alone, the same Comment capture is emitted). -/
theorem out_of_bounds_endrow_counterexample :
    parseFileChunks ["function f(", "x"]
      [⟨"definition.function", 0, 5⟩, ⟨"definition.comment", 1, 1⟩] = [] ∧
    parseFileChunks ["function f(", "x"] [⟨"definition.comment", 1, 1⟩] = ["x"] := by
  refine ⟨by decide, by decide⟩

/-- C8 amended: only `startRow` is validated — a capture whose `startRow`
has no corresponding line is silently skipped, with the processed set
unchanged and the remaining captures processed as if it were absent;
`endRow` is never checked (an out-of-bounds `endRow` either clamps or
throws, as the counterexample shows). -/
theorem startrow_out_of_bounds_skipped :
    ∀ (lines p chunks : List String) (c : Capture) (rest : List Capture),
      lines[c.startRow]? = none →
      processCapture lines p c = some (p, none) ∧
      runCaptures lines p chunks (c :: rest) = runCaptures lines p chunks rest := by
  intro lines p chunks c rest hl
  have h1 : processCapture lines p c = some (p, none) := by
    simp [processCapture, hl]
  exact ⟨h1, by simp [runCaptures, h1]⟩

theorem startrow_out_of_bounds_skipped_witness :
    processCapture [] [] ⟨"definition.comment", 0, 0⟩ = some ([], none) ∧
    runCaptures [] [] [] [⟨"definition.comment", 0, 0⟩] = runCaptures [] [] [] [] :=
  startrow_out_of_bounds_skipped [] [] [] ⟨"definition.comment", 0, 0⟩ [] (by decide)

/-- C9: a ClassDefinition capture emits the start line, plus the trimmed
next line exactly when `startRow+1 ≤ endRow` and that line contains
`extends` or `implements`, each selected line stripped from its first brace
onward and trimmed, under the usual dedup rule; Scenario C yields the single
chunk with the body elided. -/
theorem class_definition_chunk :
    (∀ (lines p : List String) (c : Capture) (l0 nl : String),
      lines[c.startRow]? = some l0 → l0 ≠ "" →
      classifyName c.name = Category.ClassDefinition →
      c.startRow + 1 ≤ c.endRow →
      lines[c.startRow + 1]? = some nl →
      processCapture lines p c = dedupFinish p
        ((if jsIncludes (jsTrim nl) "extends" || jsIncludes (jsTrim nl) "implements" then
            [l0, jsTrim nl]
          else [l0]).map stripBrace)) ∧
    (∀ (lines p : List String) (c : Capture) (l0 : String),
      lines[c.startRow]? = some l0 → l0 ≠ "" →
      classifyName c.name = Category.ClassDefinition →
      ¬ (c.startRow + 1 ≤ c.endRow) →
      processCapture lines p c = dedupFinish p ([l0].map stripBrace)) ∧
    parseFileChunks
      ["class Dog extends Animal implements Runnable \x7b", "  bark() \x7b\x7d", "\x7d"]
      [⟨"definition.class", 0, 2⟩] =
      ["class Dog extends Animal implements Runnable"] := by
  refine ⟨?_, ?_, by decide⟩
  · intro lines p c l0 nl hl he hcat hrange hnl
    obtain ⟨hf, ht, hcl⟩ := classify_class hcat
    simp only [processCapture, classFinish, hl, he, hf, ht, hcl, hrange,
      hnl, isFullCaptureName, Bool.or_true, Bool.true_or, Bool.and_self,
      Bool.false_eq_true, if_false, if_true, ite_true, ite_false]
    split <;> rfl
  · intro lines p c l0 hl he hcat hrange
    obtain ⟨hf, ht, hcl⟩ := classify_class hcat
    simp [processCapture, classFinish, hl, he, hf, ht, hcl, hrange,
      isFullCaptureName]

theorem class_definition_chunk_witness :
    processCapture
      ["class Dog extends Animal implements Runnable \x7b", "  bark() \x7b\x7d", "\x7d"]
      [] ⟨"definition.class", 0, 2⟩ =
      dedupFinish []
        ((if jsIncludes (jsTrim "  bark() \x7b\x7d") "extends" ||
             jsIncludes (jsTrim "  bark() \x7b\x7d") "implements" then
            ["class Dog extends Animal implements Runnable \x7b", jsTrim "  bark() \x7b\x7d"]
          else ["class Dog extends Animal implements Runnable \x7b"]).map stripBrace) :=
  class_definition_chunk.1
    ["class Dog extends Animal implements Runnable \x7b", "  bark() \x7b\x7d", "\x7d"]
    [] ⟨"definition.class", 0, 2⟩ "class Dog extends Animal implements Runnable \x7b"
    "  bark() \x7b\x7d" (by decide) (by decide) (by decide) (by decide) (by decide)

/-- C10: a capture whose start row exists but holds the empty string is
skipped by the same falsy guard as an out-of-bounds start row: nothing is
emitted, the processed set is unchanged, and the remaining captures are
processed as if the capture were absent. -/
theorem empty_start_line_skipped :
    ∀ (lines p chunks : List String) (c : Capture) (rest : List Capture),
      lines[c.startRow]? = some "" →
      processCapture lines p c = some (p, none) ∧
      runCaptures lines p chunks (c :: rest) = runCaptures lines p chunks rest := by
  intro lines p chunks c rest hl
  have h1 : processCapture lines p c = some (p, none) := by
    simp [processCapture, hl]
  exact ⟨h1, by simp [runCaptures, h1]⟩

theorem empty_start_line_skipped_witness :
    processCapture ["", "x"] [] ⟨"definition.comment", 0, 1⟩ = some ([], none) ∧
    runCaptures ["", "x"] [] [] [⟨"definition.comment", 0, 1⟩] =
      runCaptures ["", "x"] [] [] [] :=
  empty_start_line_skipped ["", "x"] [] [] ⟨"definition.comment", 0, 1⟩ [] (by decide)

end Repomix
